import Mathlib

/-!
Shallow embedding of `src/src/support/Languages.cpp` (Koder), the layered
language-configuration loader.  The YAML library (yaml-cpp) and the Scintilla
editor are external collaborators: they are modelled by a small YAML value
type with the exact lookup/conversion/failure behaviour the source relies on,
and by an editor state that records the commands sent to it together with a
scripted stream of `SCI_ALLOCATESUBSTYLES` results.
-/

namespace Koder

/-- Failure kinds raised by the yaml-cpp calls the source makes:
`YAML::BadFile` from `LoadFile` on an unopenable file, `ParserException` on
invalid document text, `TypedBadConversion<T>` from `Node::as<T>` on a node of
the wrong shape, and `InvalidNode` from `as<T>` on an undefined node. -/
inductive YamlError where
  | badFile
  | parserError
  | typedBadConversionInt
  | typedBadConversionString
  | typedBadConversionVecString
  | typedBadConversionMapIntInt
  | invalidNode
deriving DecidableEq

/-- Node of a parsed YAML document as the source observes it through yaml-cpp.
`undef` is the invalid ("zombie") node returned by a failed `operator[]`
lookup; scalars carry their raw text. -/
inductive YamlNode where
  | undef
  | scalar (s : String)
  | seq (xs : List YamlNode)
  | ymap (kvs : List (YamlNode × YamlNode))

/-- Key lookup in a YAML mapping: first entry whose key is the given scalar. -/
def yamlLookup : List (YamlNode × YamlNode) → String → YamlNode
  | [], _ => .undef
  | (k, v) :: rest, key =>
    match k with
    | .scalar s => if s = key then v else yamlLookup rest key
    | _ => yamlLookup rest key

/-- `node[key]` for a string key: a map is searched, everything else (and a
missing key) yields the undefined node. -/
def yamlGet (n : YamlNode) (key : String) : YamlNode :=
  match n with
  | .ymap kvs => yamlLookup kvs key
  | _ => YamlNode.undef

/-- `node[i]` for an integer index: a sequence is indexed, an out-of-range
index or a non-sequence yields the undefined node. -/
def yamlGetAt (n : YamlNode) (i : Nat) : YamlNode :=
  match n with
  | .seq xs => xs.getD i YamlNode.undef
  | _ => YamlNode.undef

/-- `Node::operator bool` / `IsDefined`. -/
def isDefined : YamlNode → Bool
  | .undef => false
  | _ => true

/-- `Node::IsSequence`. -/
def isSequence : YamlNode → Bool
  | .seq _ => true
  | _ => false

/-- `Node::IsMap`. -/
def isYMap : YamlNode → Bool
  | .ymap _ => true
  | _ => false

/-- Value produced by yaml-cpp iteration (`for (const auto& x : node)`):
iterating a map yields items with `key`/`val` set, iterating a sequence yields
items whose `node` is the element (with undefined `key`/`val`), anything else
yields nothing. -/
structure YItem where
  node : YamlNode
  key : YamlNode
  val : YamlNode

/-- Items visited by a range-for over a node. -/
def yamlItems : YamlNode → List YItem
  | .ymap kvs => kvs.map fun kv => ⟨.undef, kv.1, kv.2⟩
  | .seq xs => xs.map fun x => ⟨x, .undef, .undef⟩
  | _ => []

/-- Decimal digit run, accumulated left to right; fails on a non-digit. -/
def parseDigits : List Char → Nat → Option Nat
  | [], acc => some acc
  | c :: cs, acc =>
    if c.isDigit then parseDigits cs (acc * 10 + (c.toNat - 48)) else none

/-- Integer reading of a scalar's text, the model of yaml-cpp's
stringstream-based `convert<int>`: an optional sign followed by at least one
decimal digit, consuming the whole string. -/
def parseInt (s : String) : Option Int :=
  match s.data with
  | [] => none
  | '-' :: cs =>
    if cs = [] then none else (parseDigits cs 0).map fun n => -(n : Int)
  | '+' :: cs =>
    if cs = [] then none else (parseDigits cs 0).map fun n => (n : Int)
  | cs => (parseDigits cs 0).map fun n => (n : Int)

/-- `Node::as<int>`: converts a scalar holding an integer literal; an
undefined node raises `InvalidNode`, any other failure raises
`TypedBadConversion<int>`. -/
def asInt : YamlNode → Except YamlError Int
  | .undef => .error .invalidNode
  | .scalar s =>
    match parseInt s with
    | some n => .ok n
    | none => .error .typedBadConversionInt
  | _ => .error .typedBadConversionInt

/-- `Node::as<std::string>`: succeeds exactly on scalar nodes. -/
def asString : YamlNode → Except YamlError String
  | .undef => .error .invalidNode
  | .scalar s => .ok s
  | _ => .error .typedBadConversionString

/-- `Node::as<std::vector<std::string>>`: element conversions run in order and
their failures propagate, a non-sequence fails wholesale. -/
def asStringList : YamlNode → Except YamlError (List String)
  | .undef => .error .invalidNode
  | .seq xs => xs.mapM asString
  | _ => .error .typedBadConversionVecString

/-- First-match lookup in an integer association list. -/
def ifind : List (Int × Int) → Int → Option Int
  | [], _ => none
  | (k, v) :: rest, key => if key = k then some v else ifind rest key

/-- `std::map<int,int>`, modelled as an association list kept sorted by key
(the C++ container's iteration order). -/
abbrev SMap := List (Int × Int)

/-- `std::map<int,int>` insert-or-overwrite (`operator[]=`). -/
def smapInsert : SMap → Int → Int → SMap
  | [], k, v => [(k, v)]
  | (k', v') :: rest, k, v =>
    if k < k' then (k, v) :: (k', v') :: rest
    else if k = k' then (k, v) :: rest
    else (k', v') :: smapInsert rest k v

/-- `std::map<int,int>::emplace`: insert only when the key is absent. -/
def smapEmplace : SMap → Int → Int → SMap
  | [], k, v => [(k, v)]
  | (k', v') :: rest, k, v =>
    if k < k' then (k, v) :: (k', v') :: rest
    else if k = k' then (k', v') :: rest
    else (k', v') :: smapEmplace rest k v

/-- `dst.merge(src)` on `std::map<int,int>`: every entry of `src` whose key is
absent from `dst` moves into `dst`; colliding keys keep `dst`'s value. -/
def smapMerge (dst src : SMap) : SMap :=
  src.foldl (fun d kv => smapEmplace d kv.1 kv.2) dst

/-- One entry of a `Node::as<std::map<int,int>>` conversion: convert key and
value, assign through `operator[]`. -/
def styleEntry (m : SMap) (kv : YamlNode × YamlNode) : Except YamlError SMap := do
  let k ← asInt kv.1
  let v ← asInt kv.2
  .ok (smapInsert m k v)

/-- `Node::as<std::map<int,int>>`: iterates the mapping, converting each key
and value and assigning through `operator[]`; inner conversion failures
propagate, a non-map fails wholesale. -/
def asMapIntInt : YamlNode → Except YamlError SMap
  | .undef => .error .invalidNode
  | .ymap kvs => kvs.foldlM styleEntry []
  | _ => .error .typedBadConversionMapIntInt

/-- `std::unordered_map<int,int>::emplace`: no-op when the key is present.
Bucket order is irrelevant to the source's use, so an association list
suffices. -/
def umapEmplace (m : List (Int × Int)) (k v : Int) : List (Int × Int) :=
  if (ifind m k).isSome then m else m ++ [(k, v)]

/-- `std::unordered_map<int,int>::operator[]` read: the mapped value, or a
value-initialized `0` for a missing key.  (The insertion `operator[]` performs
on a miss is unobservable here: the source never emplaces into
`substyleStartMap` after first reading it.) -/
def umapGet (m : List (Int × Int)) (k : Int) : Int :=
  (ifind m k).getD 0

/-- Command sent to the Scintilla editor, with the value an allocation call
returned recorded alongside it. -/
inductive EditorCmd where
  | freeSubstyles
  | setLexer (lexerId : Int)
  | setLexerLanguage (nm : String)
  | setProperty (nm value : String)
  | setKeywords (idx : Int) (words : String)
  | allocateSubstyles (classId : Int) (count : Nat) (result : Int)
  | setIdentifiers (substyleId : Int) (idents : String)
  | setCommentLine (tok : String)
  | setCommentBlock (openTok closeTok : String)
deriving DecidableEq

/-- Editor state: the commands sent so far, plus the scripted stream of values
`SCI_ALLOCATESUBSTYLES` will return (the editor decides those; claims
quantify over them). -/
structure Editor where
  trace : List EditorCmd
  allocResults : List Int
deriving DecidableEq

/-- Record one command. -/
def send (ed : Editor) (c : EditorCmd) : Editor :=
  { ed with trace := ed.trace ++ [c] }

/-- `SCI_ALLOCATESUBSTYLES`: consumes the next scripted result (defaulting to
0 when the script is exhausted) and records the call. -/
def allocSubstyles (ed : Editor) (classId : Int) (count : Nat) : Int × Editor :=
  let start := ed.allocResults.headD 0
  (start, { trace := ed.trace ++ [.allocateSubstyles classId count start],
            allocResults := ed.allocResults.tail })

/-- What `YAML::LoadFile` finds at one layer's path: no readable file, a file
with invalid document text, or a parsed document. -/
inductive LayerDoc where
  | absent
  | malformed
  | doc (n : YamlNode)

/-- `YAML::LoadFile`: `BadFile` for an unopenable file, `ParserException` for
invalid text, otherwise the parsed root node. -/
def loadFile : LayerDoc → Except YamlError YamlNode
  | .absent => .error .badFile
  | .malformed => .error .parserError
  | .doc n => .ok n

namespace Languages

/-- Lines 126-133: try the lexer selector as an int (`SCI_SETLEXER`); only a
`TypedBadConversion<int>` falls back to the string form
(`SCI_SETLEXERLANGUAGE`); every other failure propagates. -/
def lexerStep (ed : Editor) (language : YamlNode) : Except YamlError Editor :=
  match asInt (yamlGet language "lexer") with
  | .ok lexerID => .ok (send ed (.setLexer lexerID))
  | .error e =>
    if e = .typedBadConversionInt then
      match asString (yamlGet language "lexer") with
      | .ok lexerName => .ok (send ed (.setLexerLanguage lexerName))
      | .error e' => .error e'
    else .error e

/-- Lines 136-138, one `properties` entry. -/
def propertyItem (ed : Editor) (item : YItem) : Except YamlError Editor := do
  let nm ← asString item.key
  let value ← asString item.val
  .ok (send ed (.setProperty nm value))

/-- Lines 135-139: `SCI_SETPROPERTY` for every `properties` entry. -/
def propertiesStep (ed : Editor) (language : YamlNode) : Except YamlError Editor :=
  (yamlItems (yamlGet language "properties")).foldlM propertyItem ed

/-- Lines 142-144, one `keywords` entry. -/
def keywordItem (ed : Editor) (item : YItem) : Except YamlError Editor := do
  let num ← asInt item.key
  let words ← asString item.val
  .ok (send ed (.setKeywords num words))

/-- Lines 141-145: `SCI_SETKEYWORDS` for every `keywords` entry. -/
def keywordsStep (ed : Editor) (language : YamlNode) : Except YamlError Editor :=
  (yamlItems (yamlGet language "keywords")).foldlM keywordItem ed

/-- Lines 160-163, one identifier string: `SCI_SETIDENTIFIERS` at
`start + i`, with the `i++` counter threaded through the fold. -/
def identifierBinding (start : Int) (st : Editor × Int) (el : YItem) :
    Except YamlError (Editor × Int) := do
  let s ← asString el.node
  .ok (send st.1 (.setIdentifiers (start + st.2) s), st.2 + 1)

/-- Lines 150-164, one `identifiers` entry: a non-sequence value is skipped;
otherwise allocate `size` substyles for the class id, record the returned
start, and bind `start + i` to each identifier string. -/
def identifiersGroup (st : List (Int × Int) × Editor) (item : YItem) :
    Except YamlError (List (Int × Int) × Editor) :=
  if isSequence item.val then do
    let substyleId ← asInt item.key
    let elems := yamlItems item.val
    let (start, ed) := allocSubstyles st.2 substyleId elems.length
    let ssm := umapEmplace st.1 substyleId start
    let r ← elems.foldlM (identifierBinding start) (ed, (0 : Int))
    .ok (ssm, r.1)
  else .ok st

/-- Lines 147-165: the `identifiers` section, producing `substyleStartMap`. -/
def identifiersStep (ed : Editor) (language : YamlNode) :
    Except YamlError (List (Int × Int) × Editor) :=
  let identifiers := yamlGet language "identifiers"
  if isDefined identifiers && isYMap identifiers then
    (yamlItems identifiers).foldlM identifiersGroup ([], ed)
  else .ok ([], ed)

/-- Lines 169-171: a defined `line` node registers the line-comment token. -/
def commentLinePart (ed : Editor) (comments : YamlNode) : Except YamlError Editor :=
  let line := yamlGet comments "line"
  if isDefined line then do
    let s ← asString line
    .ok (send ed (.setCommentLine s))
  else .ok ed

/-- Lines 172-175: a defined `block` node that is a sequence registers
`block[0]`/`block[1]` as the block-comment pair. -/
def commentBlockPart (ed : Editor) (comments : YamlNode) : Except YamlError Editor :=
  let block := yamlGet comments "block"
  if isDefined block && isSequence block then do
    let o ← asString (yamlGetAt block 0)
    let c ← asString (yamlGetAt block 1)
    .ok (send ed (.setCommentBlock o c))
  else .ok ed

/-- Lines 167-176: the `comments` section. -/
def commentsStep (ed : Editor) (language : YamlNode) : Except YamlError Editor :=
  let comments := yamlGet language "comments"
  if isDefined comments then
    commentLinePart ed comments >>= fun ed => commentBlockPart ed comments
  else .ok ed

/-- Lines 178-182: the direct `styles` map, when present. -/
def stylesStep (language : YamlNode) : Except YamlError SMap :=
  let styles := yamlGet language "styles"
  if isDefined styles then asMapIntInt styles else .ok []

/-- Lines 190-193, one positional substyle element: the class id is
re-converted and the start looked up on every iteration, exactly as in the
loop body; the `i++` counter is threaded through the fold. -/
def substyleBinding (ssm : List (Int × Int)) (key : YamlNode) (st : SMap × Int) (el : YItem) :
    Except YamlError (SMap × Int) := do
  let classId ← asInt key
  let start := umapGet ssm classId
  let v ← asInt el.node
  .ok (smapEmplace st.1 (start + st.2) v, st.2 + 1)

/-- Lines 185-194, one `substyles` entry: a non-sequence value is skipped;
otherwise each positional element is emplaced at
`substyleStartMap[classId] + i`. -/
def substylesGroup (ssm : List (Int × Int)) (sm : SMap) (item : YItem) :
    Except YamlError SMap :=
  if isSequence item.val then do
    let r ← (yamlItems item.val).foldlM (substyleBinding ssm item.key) (sm, (0 : Int))
    .ok r.1
  else .ok sm

/-- Lines 183-195: the `substyles` section, folded over the direct styles. -/
def substylesStep (ssm : List (Int × Int)) (sm : SMap) (language : YamlNode) :
    Except YamlError SMap :=
  let substyles := yamlGet language "substyles"
  if isDefined substyles && isYMap substyles then
    (yamlItems substyles).foldlM (substylesGroup ssm) sm
  else .ok sm

/-- Lines 118-197, `Languages::_ApplyLanguage`: load one layer's per-language
document and apply it, returning that layer's style map and the updated
editor. -/
def _ApplyLanguage (ed : Editor) (file : LayerDoc) : Except YamlError (SMap × Editor) := do
  let language ← loadFile file
  let ed ← lexerStep ed language
  let ed ← propertiesStep ed language
  let ed ← keywordsStep ed language
  let r ← identifiersStep ed language
  let ed ← commentsStep r.2 language
  let sm ← stylesStep language
  let sm ← substylesStep r.1 sm language
  .ok (sm, ed)

/-- Lines 86-92, the body of the `DoInAllDataDirectories` lambda, iterated:
`m.merge(styleMapping); swap` folds each successful layer over the running
accumulator with the new layer's entries winning; only `YAML::BadFile` is
caught, every other failure propagates. -/
def applyLoop (acc : SMap) (ed : Editor) : List LayerDoc → Except YamlError (SMap × Editor)
  | [] => .ok (acc, ed)
  | l :: ls =>
    match _ApplyLanguage ed l with
    | .ok (m, ed') => applyLoop (smapMerge m acc) ed' ls
    | .error e => if e = .badFile then applyLoop acc ed ls else .error e

/-- Lines 81-94, `Languages::ApplyLanguage`: reset substyles, then fold the
layers (the platform's data directories, lowest priority first). -/
def ApplyLanguage (ed : Editor) (layers : List LayerDoc) : Except YamlError (SMap × Editor) :=
  applyLoop [] (send ed .freeSubstyles) layers

/-- Global catalog state (`sLanguages`, `sMenuItems`, `sExtensions`).  The
`std::map<std::string,std::string>` containers are modelled as association
lists with first-match lookup and in-place overwrite; no claim observes their
iteration order. -/
structure Catalog where
  sLanguages : List String
  sMenuItems : List (String × String)
  sExtensions : List (String × String)
deriving DecidableEq

/-- First-match lookup in a string association list. -/
def sfind : List (String × String) → String → Option String
  | [], _ => none
  | (k, v) :: rest, key => if key = k then some v else sfind rest key

/-- `std::map<std::string,std::string>` insert-or-overwrite (`m[k] = v`). -/
def sset : List (String × String) → String → String → List (String × String)
  | [], k, v => [(k, v)]
  | (k', v') :: rest, k, v =>
    if k = k' then (k, v) :: rest else (k', v') :: sset rest k v

/-- `std::map::count`. -/
def scount (m : List (String × String)) (k : String) : Nat :=
  (m.filter fun kv => kv.1 = k).length

/-- `std::map::operator[]` read: the mapped value, together with the map after
the default-insertion a miss performs. -/
def sindex : List (String × String) → String → String × List (String × String)
  | [], k => ("", [(k, "")])
  | (k', v') :: rest, k =>
    if k = k' then (v', (k', v') :: rest)
    else
      let r := sindex rest k
      (r.1, (k', v') :: r.2)

/-- Lines 58-67, `Languages::GetLanguageForExtension`: `lang` starts as
"text" and is overwritten by the mapped id when the extension is known. -/
def GetLanguageForExtension (cat : Catalog) (ext : String) : Bool × String × Catalog :=
  if scount cat.sExtensions ext > 0 then
    let r := sindex cat.sExtensions ext
    (true, r.1, { cat with sExtensions := r.2 })
  else (false, "text", cat)

/-- Lines 218-228, the body of the `_LoadLanguages` loop for one catalog
entry: overwrite every listed extension's mapping, append the id to
`sLanguages` only when absent, overwrite the menu item. -/
def loadLanguagesEntry (cat : Catalog) (item : YItem) : Except YamlError Catalog := do
  let nm ← asString item.key
  let menuitem ← asString (yamlGet item.val "name")
  let extensions ← asStringList (yamlGet item.val "extensions")
  let exts := extensions.foldl (fun m e => sset m e nm) cat.sExtensions
  let langs := if nm ∈ cat.sLanguages then cat.sLanguages else cat.sLanguages ++ [nm]
  .ok { sLanguages := langs, sMenuItems := sset cat.sMenuItems nm menuitem,
        sExtensions := exts }

/-- Lines 211-229, `Languages::_LoadLanguages`: load one layer's catalog
document and fold its entries into the catalog. -/
def _LoadLanguages (cat : Catalog) (file : LayerDoc) : Except YamlError Catalog := do
  let languages ← loadFile file
  (yamlItems languages).foldlM loadLanguagesEntry cat

/-- Lines 203-208: per-layer catalog loading; only `YAML::BadFile` is caught. -/
def loadLoop (cat : Catalog) : List LayerDoc → Except YamlError Catalog
  | [] => .ok cat
  | l :: ls =>
    match _LoadLanguages cat l with
    | .ok cat' => loadLoop cat' ls
    | .error e => if e = .badFile then loadLoop cat ls else .error e

/-- Lines 200-208, `Languages::LoadLanguages` over the layered directories. -/
def LoadLanguages (cat : Catalog) (layers : List LayerDoc) : Except YamlError Catalog :=
  loadLoop cat layers

end Languages

/-- Left-biased choice on optional values. -/
def optOr : Option Int → Option Int → Option Int
  | some v, _ => some v
  | none, b => b

/-- Strict bound on the head key of an association list. -/
def keyLtHead (a : Int) : SMap → Prop
  | [] => True
  | (k, _) :: _ => a < k

/-- Keys strictly increase: the invariant of the `std::map<int,int>` model. -/
def smapSorted : SMap → Prop
  | [] => True
  | (k, _) :: rest => keyLtHead k rest ∧ smapSorted rest

/-- Every key of the list is below the bound. -/
def keyUb : SMap → Int → Prop
  | [], _ => True
  | (k, _) :: rest, b => k < b ∧ keyUb rest b

/-- Consecutively keyed pairs `(k, v₀), (k+1, v₁), …`, the shape the claims
call "the substyle pairs in positional order". -/
def stripe : Int → List Int → List (Int × Int)
  | _, [] => []
  | k, v :: vs => (k, v) :: stripe (k + 1) vs

/-- Repeated `smapEmplace` at consecutive keys, the accumulated effect of one
substyle group's fold. -/
def emplaceSeq : SMap → Int → List Int → SMap
  | sm, _, [] => sm
  | sm, k, v :: vs => emplaceSeq (smapEmplace sm k v) (k + 1) vs

/-- Value for a key from the latest (highest-priority) of a list of per-layer
style maps that defines it, layers given lowest priority first. -/
def lastHit : List SMap → Int → Option Int
  | [], _ => none
  | m :: ms, k => optOr (lastHit ms k) (ifind m k)

namespace Languages

/-- Per-layer style maps in layer order: the same iteration as `applyLoop`,
collecting each successful layer's style map instead of merging it. -/
def collectLayerMaps (ed : Editor) : List LayerDoc → Except YamlError (List SMap × Editor)
  | [] => .ok ([], ed)
  | l :: ls =>
    match _ApplyLanguage ed l with
    | .ok (m, ed') => (collectLayerMaps ed' ls).map fun r => (m :: r.1, r.2)
    | .error e => if e = .badFile then collectLayerMaps ed ls else .error e

/-- Lexer-selection commands (`SCI_SETLEXER` / `SCI_SETLEXERLANGUAGE`). -/
def isLexerSel : EditorCmd → Bool
  | .setLexer _ => true
  | .setLexerLanguage _ => true
  | _ => false

/-- Number of lexer-selection commands in a trace. -/
def countLexerSel (t : List EditorCmd) : Nat :=
  t.countP fun c => isLexerSel c

/-- Commands the non-lexer steps may emit: never a lexer selection and never
the substyle reset. -/
def NonLexCmd (c : EditorCmd) : Prop :=
  isLexerSel c = false ∧ c ≠ .freeSubstyles

/-- One editor state extends another by newly sent commands, all of which
satisfy `P`. -/
def EmitsOnly (P : EditorCmd → Prop) (ed ed' : Editor) : Prop :=
  ∃ new, ed'.trace = ed.trace ++ new ∧ ∀ c ∈ new, P c

/-- Trace prefixing: the same editor with extra commands already recorded
before it was handed to the code under scrutiny. -/
def shiftEd (t : List EditorCmd) (ed : Editor) : Editor :=
  ⟨t ++ ed.trace, ed.allocResults⟩

/-- Layer-1 document of the spec's worked example: an integer lexer id and
two direct style entries. -/
def layerOneDoc : YamlNode :=
  .ymap [(.scalar "lexer", .scalar "1"),
         (.scalar "styles", .ymap [(.scalar "0", .scalar "10"), (.scalar "1", .scalar "11")])]

/-- Layer-2 document of the spec's worked example: a named lexer, an
overriding style entry, and an identifier group with a substyle group. -/
def layerTwoDoc : YamlNode :=
  .ymap [(.scalar "lexer", .scalar "cpp"),
         (.scalar "styles", .ymap [(.scalar "1", .scalar "99")]),
         (.scalar "identifiers", .ymap [(.scalar "20", .seq [.scalar "a", .scalar "b"])]),
         (.scalar "substyles", .ymap [(.scalar "20", .seq [.scalar "50", .scalar "51"])])]

/-- Document whose `substyles` entry has no matching `identifiers` group. -/
def orphanSubstyleDoc (ck : YamlNode) (subs : List YamlNode) : YamlNode :=
  .ymap [(.scalar "lexer", .scalar "1"),
         (.scalar "substyles", .ymap [(ck, .seq subs)])]

/-- Document with one identifier group and one substyle group for the same
lexical-class key. -/
def substyleDoc (ck : YamlNode) (ids subs : List YamlNode) : YamlNode :=
  .ymap [(.scalar "lexer", .scalar "1"),
         (.scalar "identifiers", .ymap [(ck, .seq ids)]),
         (.scalar "substyles", .ymap [(ck, .seq subs)])]

/-- Document whose `comments.block` is a one-element sequence. -/
def arityOneBlockDoc : YamlNode :=
  .ymap [(.scalar "lexer", .scalar "1"),
         (.scalar "comments", .ymap [(.scalar "block", .seq [.scalar "/*"])])]

/-- Document with a line-comment token and a non-sequence `block` value. -/
def lineCommentDoc : YamlNode :=
  .ymap [(.scalar "lexer", .scalar "1"),
         (.scalar "comments", .ymap [(.scalar "line", .scalar "//"),
                                     (.scalar "block", .scalar "x")])]

end Languages

theorem ok_bind {α β : Type} (a : α) (f : α → Except YamlError β) :
    (Except.ok a >>= f) = f a := rfl

theorem error_bind {α β : Type} (e : YamlError) (f : α → Except YamlError β) :
    ((Except.error e : Except YamlError α) >>= f) = .error e := rfl

theorem optOr_none_right (a : Option Int) : optOr a none = a := by
  cases a <;> rfl

theorem optOr_assoc (a b c : Option Int) : optOr (optOr a b) c = optOr a (optOr b c) := by
  cases a <;> rfl

theorem keyLtHead_trans {a b : Int} {m : SMap} (hab : a < b) (h : keyLtHead b m) :
    keyLtHead a m := by
  cases m with
  | nil => trivial
  | cons kv rest => exact lt_trans hab h

theorem ifind_none_of_sorted_lt {m : SMap} {k : Int} (hs : smapSorted m)
    (hk : keyLtHead k m) : ifind m k = none := by
  induction m with
  | nil => rfl
  | cons kv rest ih =>
    obtain ⟨k', v'⟩ := kv
    have hkk : k ≠ k' := ne_of_lt hk
    simp only [ifind, if_neg hkk]
    exact ih hs.2 (keyLtHead_trans hk hs.1)

theorem ifind_smapEmplace {m : SMap} (hs : smapSorted m) (a v k : Int) :
    ifind (smapEmplace m a v) k = optOr (ifind m k) (if k = a then some v else none) := by
  induction m with
  | nil =>
    simp only [smapEmplace, ifind, optOr]
  | cons kv rest ih =>
    obtain ⟨k', v'⟩ := kv
    rcases lt_trichotomy a k' with h1 | h1 | h1
    · simp only [smapEmplace, if_pos h1]
      by_cases hka : k = a
      · subst hka
        have hnone : ifind ((k', v') :: rest) k = none :=
          ifind_none_of_sorted_lt hs h1
        rw [hnone]
        simp [ifind, optOr]
      · simp only [ifind, if_neg hka]
        rw [optOr_none_right]
    · have hne : ¬ a < k' := by omega
      simp only [smapEmplace, if_neg hne, if_pos h1]
      by_cases hka : k = a
      · have hkk' : k = k' := by omega
        simp [ifind, hkk', optOr]
      · rw [if_neg hka, optOr_none_right]
    · have hne : ¬ a < k' := not_lt_of_gt h1
      have hne2 : ¬ a = k' := fun h => absurd h1 (by omega)
      simp only [smapEmplace, if_neg hne, if_neg hne2, ifind]
      by_cases hkk : k = k'
      · simp [if_pos hkk, optOr]
      · rw [if_neg hkk, if_neg hkk]
        exact ih hs.2

theorem ifind_smapInsert (m : SMap) (a v k : Int) :
    ifind (smapInsert m a v) k = if k = a then some v else ifind m k := by
  induction m with
  | nil => simp [smapInsert, ifind]
  | cons kv rest ih =>
    obtain ⟨k', v'⟩ := kv
    rcases lt_trichotomy a k' with h1 | h1 | h1
    · simp only [smapInsert, if_pos h1, ifind]
    · have hne : ¬ a < k' := by omega
      simp only [smapInsert, if_neg hne, if_pos h1, ifind]
      by_cases hkk : k = a
      · simp [if_pos hkk, hkk, h1]
      · have : k ≠ k' := by rw [← h1]; exact hkk
        simp [if_neg hkk, if_neg this]
    · have hne : ¬ a < k' := by omega
      have hne2 : a ≠ k' := by omega
      simp only [smapInsert, if_neg hne, if_neg hne2, ifind]
      by_cases hkk : k = k'
      · have : k ≠ a := by omega
        simp [if_pos hkk, if_neg this]
      · simp [if_neg hkk, ih]

theorem keyLtHead_smapEmplace {m : SMap} {b a : Int} (v : Int) (hba : b < a)
    (h : keyLtHead b m) : keyLtHead b (smapEmplace m a v) := by
  cases m with
  | nil => exact hba
  | cons kv rest =>
    obtain ⟨k', v'⟩ := kv
    rcases lt_trichotomy a k' with h1 | h1 | h1
    · simp only [smapEmplace, if_pos h1]; exact hba
    · have hne : ¬ a < k' := by omega
      simp only [smapEmplace, if_neg hne, if_pos h1]; exact h
    · have hne : ¬ a < k' := by omega
      have hne2 : a ≠ k' := by omega
      simp only [smapEmplace, if_neg hne, if_neg hne2]; exact h

theorem smapSorted_smapEmplace {m : SMap} (hs : smapSorted m) (a v : Int) :
    smapSorted (smapEmplace m a v) := by
  induction m with
  | nil => exact ⟨trivial, trivial⟩
  | cons kv rest ih =>
    obtain ⟨k', v'⟩ := kv
    rcases lt_trichotomy a k' with h1 | h1 | h1
    · simp only [smapEmplace, if_pos h1]
      exact ⟨h1, hs⟩
    · have hne : ¬ a < k' := by omega
      simp only [smapEmplace, if_neg hne, if_pos h1]
      exact hs
    · have hne : ¬ a < k' := by omega
      have hne2 : a ≠ k' := by omega
      simp only [smapEmplace, if_neg hne, if_neg hne2]
      exact ⟨keyLtHead_smapEmplace v h1 hs.1, ih hs.2⟩

theorem keyLtHead_smapInsert {m : SMap} {b a : Int} (v : Int) (hba : b < a)
    (h : keyLtHead b m) : keyLtHead b (smapInsert m a v) := by
  cases m with
  | nil => exact hba
  | cons kv rest =>
    obtain ⟨k', v'⟩ := kv
    rcases lt_trichotomy a k' with h1 | h1 | h1
    · simp only [smapInsert, if_pos h1]; exact hba
    · have hne : ¬ a < k' := by omega
      simp only [smapInsert, if_neg hne, if_pos h1]; exact hba
    · have hne : ¬ a < k' := by omega
      have hne2 : a ≠ k' := by omega
      simp only [smapInsert, if_neg hne, if_neg hne2]; exact h

theorem smapSorted_smapInsert {m : SMap} (hs : smapSorted m) (a v : Int) :
    smapSorted (smapInsert m a v) := by
  induction m with
  | nil => exact ⟨trivial, trivial⟩
  | cons kv rest ih =>
    obtain ⟨k', v'⟩ := kv
    rcases lt_trichotomy a k' with h1 | h1 | h1
    · simp only [smapInsert, if_pos h1]
      exact ⟨h1, hs⟩
    · have hne : ¬ a < k' := by omega
      simp only [smapInsert, if_neg hne, if_pos h1]
      refine ⟨?_, hs.2⟩
      rw [h1]; exact hs.1
    · have hne : ¬ a < k' := by omega
      have hne2 : a ≠ k' := by omega
      simp only [smapInsert, if_neg hne, if_neg hne2]
      exact ⟨keyLtHead_smapInsert v h1 hs.1, ih hs.2⟩

theorem smapSorted_smapMerge {dst : SMap} (src : SMap) (hs : smapSorted dst) :
    smapSorted (smapMerge dst src) := by
  induction src generalizing dst with
  | nil => exact hs
  | cons kv src ih =>
    simp only [smapMerge, List.foldl_cons] at *
    exact ih (smapSorted_smapEmplace hs kv.1 kv.2)

theorem ifind_smapMerge {dst : SMap} (src : SMap) (hs : smapSorted dst) (k : Int) :
    ifind (smapMerge dst src) k = optOr (ifind dst k) (ifind src k) := by
  induction src generalizing dst with
  | nil => simp only [smapMerge, List.foldl_nil, ifind, optOr_none_right]
  | cons kv src ih =>
    obtain ⟨a, v⟩ := kv
    simp only [smapMerge, List.foldl_cons] at *
    rw [ih (smapSorted_smapEmplace hs a v), ifind_smapEmplace hs, ifind]
    cases hdk : ifind dst k with
    | some w => simp [optOr]
    | none =>
      simp only [optOr]
      by_cases hka : k = a <;> simp [hka, optOr]

theorem ifind_foldl_merge (ms : List SMap) (acc : SMap) (k : Int)
    (h : ∀ m ∈ ms, smapSorted m) :
    ifind (ms.foldl (fun a m => smapMerge m a) acc) k = optOr (lastHit ms k) (ifind acc k) := by
  induction ms generalizing acc with
  | nil => simp [lastHit, optOr]
  | cons m ms ih =>
    simp only [List.foldl_cons, lastHit]
    rw [ih (smapMerge m acc) (fun m hm => h m (List.mem_cons_of_mem _ hm)),
      ifind_smapMerge acc (h m (List.mem_cons_self _ _)) k, ← optOr_assoc]

theorem keyUb_succ {m : SMap} {k : Int} (h : keyUb m k) : keyUb m (k + 1) := by
  induction m with
  | nil => trivial
  | cons kv rest ih =>
    obtain ⟨a, v⟩ := kv
    exact ⟨by have := h.1; omega, ih h.2⟩

theorem keyUb_snoc {m : SMap} {b k : Int} (v : Int) (h : keyUb m b) (hkb : k < b) :
    keyUb (m ++ [(k, v)]) b := by
  induction m with
  | nil => exact ⟨hkb, trivial⟩
  | cons kv rest ih => exact ⟨h.1, ih h.2⟩

theorem smapEmplace_append {m : SMap} {k : Int} (v : Int) (h : keyUb m k) :
    smapEmplace m k v = m ++ [(k, v)] := by
  induction m with
  | nil => rfl
  | cons kv rest ih =>
    obtain ⟨k', v'⟩ := kv
    have h1 : ¬ k < k' := by have := h.1; omega
    have h2 : k ≠ k' := by have := h.1; omega
    simp only [smapEmplace, if_neg h1, if_neg h2, List.cons_append, List.cons.injEq,
      true_and]
    exact ih h.2

theorem emplaceSeq_stripe (vs : List Int) (m : SMap) (k : Int) (h : keyUb m k) :
    emplaceSeq m k vs = m ++ stripe k vs := by
  induction vs generalizing m k with
  | nil => simp [emplaceSeq, stripe]
  | cons v vs ih =>
    simp only [emplaceSeq, stripe]
    rw [smapEmplace_append v h, ih (m ++ [(k, v)]) (k + 1)
      (keyUb_snoc v (keyUb_succ h) (by omega)), List.append_assoc]
    rfl

theorem bind_ok_iff {α β : Type} {x : Except YamlError α} {f : α → Except YamlError β}
    {b : β} : x >>= f = .ok b ↔ ∃ a, x = .ok a ∧ f a = .ok b := by
  cases x with
  | error e => simp [Bind.bind, Except.bind]
  | ok a => simp [Bind.bind, Except.bind]

theorem except_map_ok_iff {α β : Type} {x : Except YamlError α} {f : α → β} {b : β} :
    Except.map f x = .ok b ↔ ∃ a, x = .ok a ∧ f a = b := by
  cases x with
  | error e => simp [Except.map]
  | ok a => simp [Except.map]

theorem map_bind {α β γ : Type} (x : Except YamlError α) (g : α → β)
    (f : β → Except YamlError γ) :
    (Except.map g x >>= f) = x >>= fun a => f (g a) := by
  cases x <;> rfl

theorem bind_map {α β γ : Type} (x : Except YamlError α) (f : α → Except YamlError β)
    (g : β → γ) :
    Except.map g (x >>= f) = x >>= fun a => Except.map g (f a) := by
  cases x <;> rfl

theorem except_map_map {α β γ : Type} (x : Except YamlError α) (f : α → β) (g : β → γ) :
    Except.map g (Except.map f x) = Except.map (fun a => g (f a)) x := by
  cases x <;> rfl

theorem bind_congr' {α β : Type} {x : Except YamlError α} {f g : α → Except YamlError β}
    (h : ∀ a, f a = g a) : x >>= f = x >>= g := by
  cases x with
  | error e => rfl
  | ok a => exact h a

theorem map_ok {α β : Type} (f : α → β) (a : α) :
    Except.map f (Except.ok a : Except YamlError α) = .ok (f a) := rfl

theorem map_error {α β : Type} (f : α → β) (e : YamlError) :
    Except.map f (Except.error e : Except YamlError α) = .error e := rfl

namespace Languages

theorem styleFold_sorted (kvs : List (YamlNode × YamlNode)) (m₀ m : SMap)
    (hs : smapSorted m₀) (h : kvs.foldlM styleEntry m₀ = .ok m) : smapSorted m := by
  induction kvs generalizing m₀ with
  | nil =>
    simp only [List.foldlM_nil] at h
    cases h
    exact hs
  | cons kv kvs ih =>
    simp only [List.foldlM_cons, bind_ok_iff] at h
    obtain ⟨m₁, h1, h2⟩ := h
    simp only [styleEntry, bind_ok_iff] at h1
    obtain ⟨k, hk, v, hv, h1⟩ := h1
    cases h1
    exact ih _ (smapSorted_smapInsert hs k v) h2

theorem asMapIntInt_sorted {n : YamlNode} {m : SMap} (h : asMapIntInt n = .ok m) :
    smapSorted m := by
  cases n with
  | undef => cases h
  | scalar s => cases h
  | seq xs => cases h
  | ymap kvs => exact styleFold_sorted kvs [] m trivial h

theorem stylesStep_sorted {lang : YamlNode} {m : SMap} (h : stylesStep lang = .ok m) :
    smapSorted m := by
  simp only [stylesStep] at h
  split at h
  · exact asMapIntInt_sorted h
  · cases h
    trivial

theorem substyleFold_preserves (ssm : List (Int × Int)) (key : YamlNode)
    (els : List YItem) :
    ∀ (st : SMap × Int) (r : SMap × Int), smapSorted st.1 →
      els.foldlM (substyleBinding ssm key) st = .ok r →
      smapSorted r.1 ∧ ∀ k v, ifind st.1 k = some v → ifind r.1 k = some v := by
  induction els with
  | nil =>
    intro st r hs h
    simp only [List.foldlM_nil] at h
    cases h
    exact ⟨hs, fun _ _ hk => hk⟩
  | cons el els ih =>
    intro st r hs h
    simp only [List.foldlM_cons, bind_ok_iff] at h
    obtain ⟨st₁, h1, h2⟩ := h
    simp only [substyleBinding, bind_ok_iff] at h1
    obtain ⟨c, hc, v, hv, h1⟩ := h1
    cases h1
    have hs₁ : smapSorted (smapEmplace st.1 (umapGet ssm c + st.2) v) :=
      smapSorted_smapEmplace hs _ _
    obtain ⟨hr, hpres⟩ := ih _ r hs₁ h2
    refine ⟨hr, fun k w hk => hpres k w ?_⟩
    rw [ifind_smapEmplace hs, hk]
    rfl

theorem substylesGroup_preserves {ssm : List (Int × Int)} {sm sm' : SMap} {it : YItem}
    (hs : smapSorted sm) (h : substylesGroup ssm sm it = .ok sm') :
    smapSorted sm' ∧ ∀ k v, ifind sm k = some v → ifind sm' k = some v := by
  unfold substylesGroup at h
  split at h
  · simp only [bind_ok_iff] at h
    obtain ⟨r, h1, h2⟩ := h
    cases h2
    exact substyleFold_preserves ssm it.key (yamlItems it.val) (sm, 0) r hs h1
  · cases h
    exact ⟨hs, fun _ _ hk => hk⟩

theorem substylesFold_preserves (ssm : List (Int × Int)) (its : List YItem) :
    ∀ (sm sm' : SMap), smapSorted sm →
      its.foldlM (substylesGroup ssm) sm = .ok sm' →
      smapSorted sm' ∧ ∀ k v, ifind sm k = some v → ifind sm' k = some v := by
  induction its with
  | nil =>
    intro sm sm' hs h
    simp only [List.foldlM_nil] at h
    cases h
    exact ⟨hs, fun _ _ hk => hk⟩
  | cons it its ih =>
    intro sm sm' hs h
    simp only [List.foldlM_cons, bind_ok_iff] at h
    obtain ⟨sm₁, h1, h2⟩ := h
    obtain ⟨hs₁, hp₁⟩ := substylesGroup_preserves hs h1
    obtain ⟨hs', hp₂⟩ := ih sm₁ sm' hs₁ h2
    exact ⟨hs', fun k v hk => hp₂ k v (hp₁ k v hk)⟩

theorem substylesStep_preserves {ssm : List (Int × Int)} {sm sm' : SMap}
    {lang : YamlNode} (hs : smapSorted sm) (h : substylesStep ssm sm lang = .ok sm') :
    smapSorted sm' ∧ ∀ k v, ifind sm k = some v → ifind sm' k = some v := by
  simp only [substylesStep] at h
  split at h
  · exact substylesFold_preserves ssm _ sm sm' hs h
  · cases h
    exact ⟨hs, fun _ _ hk => hk⟩

theorem _ApplyLanguage_sorted {ed : Editor} {file : LayerDoc} {m : SMap} {ed' : Editor}
    (h : _ApplyLanguage ed file = .ok (m, ed')) : smapSorted m := by
  unfold _ApplyLanguage at h
  simp only [bind_ok_iff] at h
  obtain ⟨lang, _, ed₁, _, ed₂, _, ed₃, _, r, _, ed₄, _, sm₀, hsty, sm₁, hsub, hfin⟩ := h
  cases hfin
  exact (substylesStep_preserves (stylesStep_sorted hsty) hsub).1

theorem applyLoop_eq_of_collect (ls : List LayerDoc) :
    ∀ (ed : Editor) (acc : SMap) (ms : List SMap) (ed' : Editor),
      collectLayerMaps ed ls = .ok (ms, ed') →
      applyLoop acc ed ls = .ok (ms.foldl (fun a m => smapMerge m a) acc, ed') := by
  induction ls with
  | nil =>
    intro ed acc ms ed' h
    simp only [collectLayerMaps] at h
    cases h
    rfl
  | cons l ls ih =>
    intro ed acc ms ed' h
    simp only [collectLayerMaps] at h
    simp only [applyLoop]
    cases happ : _ApplyLanguage ed l with
    | ok p =>
      obtain ⟨m, ed₁⟩ := p
      simp only [happ] at h ⊢
      rw [except_map_ok_iff] at h
      obtain ⟨⟨ms₁, ed₂⟩, h1, h2⟩ := h
      injection h2 with h2a h2b
      subst h2a
      subst h2b
      rw [List.foldl_cons]
      exact ih ed₁ (smapMerge m acc) ms₁ ed₂ h1
    | error e =>
      simp only [happ] at h ⊢
      by_cases hb : e = .badFile
      · rw [if_pos hb] at h ⊢
        exact ih ed acc ms ed' h
      · rw [if_neg hb] at h
        cases h

theorem collectLayerMaps_sorted (ls : List LayerDoc) :
    ∀ (ed : Editor) (ms : List SMap) (ed' : Editor),
      collectLayerMaps ed ls = .ok (ms, ed') → ∀ m ∈ ms, smapSorted m := by
  induction ls with
  | nil =>
    intro ed ms ed' h
    simp only [collectLayerMaps] at h
    cases h
    intro m hm
    cases hm
  | cons l ls ih =>
    intro ed ms ed' h
    simp only [collectLayerMaps] at h
    cases happ : _ApplyLanguage ed l with
    | ok p =>
      obtain ⟨m, ed₁⟩ := p
      simp only [happ] at h
      rw [except_map_ok_iff] at h
      obtain ⟨⟨ms₁, ed₂⟩, h1, h2⟩ := h
      injection h2 with h2a h2b
      subst h2a
      intro m' hm'
      rcases List.mem_cons.mp hm' with rfl | hm'
      · exact _ApplyLanguage_sorted happ
      · exact ih ed₁ ms₁ ed₂ h1 m' hm'
    | error e =>
      simp only [happ] at h
      by_cases hb : e = .badFile
      · rw [if_pos hb] at h
        exact ih ed ms ed' h
      · rw [if_neg hb] at h
        cases h

/-- C1: in `ApplyLanguage` the final style map is the right-biased merge of
the per-layer style maps in layer order: for every key, the result's lookup
is the value from the latest (highest-priority) layer whose style map defines
that key, and a key defined by a single layer keeps that layer's value. -/
theorem applyLanguage_layer_override (ed : Editor) (layers : List LayerDoc)
    (ms : List SMap) (ed' : Editor) (k : Int)
    (h : collectLayerMaps (send ed .freeSubstyles) layers = .ok (ms, ed')) :
    Except.map (fun r => ifind r.1 k) (ApplyLanguage ed layers) = .ok (lastHit ms k) := by
  unfold ApplyLanguage
  rw [applyLoop_eq_of_collect layers _ [] ms ed' h]
  simp only [Except.map]
  rw [ifind_foldl_merge ms [] k (collectLayerMaps_sorted layers _ ms ed' h)]
  rw [show ifind [] k = none from rfl, optOr_none_right]

/-- Witness for C1 on the spec's worked example: key 1 collides between the
two layers and the merged map resolves it to layer 2's value 99. -/
theorem applyLanguage_layer_override_witness :
    Except.map (fun r => ifind r.1 1)
        (ApplyLanguage ⟨[], [200]⟩ [.doc layerOneDoc, .doc layerTwoDoc])
      = .ok (some 99) :=
  applyLanguage_layer_override ⟨[], [200]⟩ [.doc layerOneDoc, .doc layerTwoDoc]
    [[(0, 10), (1, 11)], [(1, 99), (200, 50), (201, 51)]]
    ⟨[.freeSubstyles, .setLexer 1, .setLexerLanguage "cpp",
      .allocateSubstyles 20 2 200, .setIdentifiers 200 "a", .setIdentifiers 201 "b"], []⟩
    1 (by rfl)

/-- C10: within a single layer, the `substyles` section never replaces an
existing style-map entry: any key already bound (by the direct `styles` map
or an earlier substyle group) keeps its original value through the whole
`substyles` section. -/
theorem substyles_do_not_override (ssm : List (Int × Int)) (sm sm' : SMap)
    (lang : YamlNode) (k v : Int) (hs : smapSorted sm)
    (h : substylesStep ssm sm lang = .ok sm') (hk : ifind sm k = some v) :
    ifind sm' k = some v :=
  (substylesStep_preserves hs h).2 k v hk

/-- Witness for C10: the direct-styles binding of key 0 to 7 survives a
substyle group that targets the same key. -/
theorem substyles_do_not_override_witness :
    ifind [((0 : Int), (7 : Int))] 0 = some 7 :=
  substyles_do_not_override [] [(0, 7)] [(0, 7)]
    (orphanSubstyleDoc (.scalar "20") [.scalar "50"]) 0 7
    ⟨trivial, trivial⟩ (by rfl) (by rfl)

theorem identifierFold_ok (start : Int) :
    ∀ (xs : List YamlNode) (nms : List String) (ed : Editor) (i : Int),
      xs.mapM asString = .ok nms →
      ∃ r : Editor × Int,
        (xs.map fun x => YItem.mk x .undef .undef).foldlM (identifierBinding start) (ed, i)
          = .ok r := by
  intro xs
  induction xs with
  | nil =>
    intro nms ed i _
    exact ⟨(ed, i), rfl⟩
  | cons x xs ih =>
    intro nms ed i h
    rw [List.mapM_cons] at h
    simp only [bind_ok_iff, pure, Except.pure, Except.ok.injEq] at h
    obtain ⟨s, hs, nms', hnms', _⟩ := h
    have hb : identifierBinding start (ed, i) ⟨x, .undef, .undef⟩
        = .ok (send ed (.setIdentifiers (start + i) s), i + 1) := by
      simp only [identifierBinding]
      rw [hs]
      rfl
    obtain ⟨r, hr⟩ := ih nms' (send ed (.setIdentifiers (start + i) s)) (i + 1) hnms'
    refine ⟨r, ?_⟩
    simp only [List.map_cons, List.foldlM_cons]
    rw [hb]
    simp only [ok_bind]
    exact hr

theorem substyleFold_eval (ssm : List (Int × Int)) (key : YamlNode) (c : Int)
    (hkey : asInt key = .ok c) :
    ∀ (subs : List YamlNode) (vs : List Int) (sm : SMap) (i : Int),
      subs.mapM asInt = .ok vs →
      (subs.map fun x => YItem.mk x .undef .undef).foldlM (substyleBinding ssm key) (sm, i)
        = .ok (emplaceSeq sm (umapGet ssm c + i) vs, i + (vs.length : Int)) := by
  intro subs
  induction subs with
  | nil =>
    intro vs sm i h
    simp only [List.mapM_nil, pure, Except.pure, Except.ok.injEq] at h
    subst h
    simp [List.map_nil, List.foldlM_nil, emplaceSeq]
    rfl
  | cons x subs ih =>
    intro vs sm i h
    rw [List.mapM_cons] at h
    simp only [bind_ok_iff, pure, Except.pure, Except.ok.injEq] at h
    obtain ⟨v, hv, vs', hvs', hcons⟩ := h
    subst hcons
    simp only [List.map_cons, List.foldlM_cons]
    have hb : substyleBinding ssm key (sm, i) ⟨x, .undef, .undef⟩
        = .ok (smapEmplace sm (umapGet ssm c + i) v, i + 1) := by
      simp only [substyleBinding]
      rw [hkey]
      simp only [ok_bind]
      rw [hv]
      rfl
    rw [hb]
    simp only [ok_bind]
    rw [ih vs' (smapEmplace sm (umapGet ssm c + i) v) (i + 1) hvs']
    have e1 : umapGet ssm c + (i + 1) = umapGet ssm c + i + 1 := by ring
    have e2 : i + 1 + (vs'.length : Int) = i + (((v :: vs').length : Nat) : Int) := by
      simp only [List.length_cons]
      push_cast
      ring
    rw [e1, e2]
    rfl

theorem substylesGroup_eval (ssm : List (Int × Int)) (sm : SMap) (nd key : YamlNode)
    (subs : List YamlNode) (c : Int) (vs : List Int)
    (hkey : asInt key = .ok c) (hsubs : subs.mapM asInt = .ok vs) :
    substylesGroup ssm sm ⟨nd, key, .seq subs⟩
      = .ok (emplaceSeq sm (umapGet ssm c) vs) := by
  have h0 : substylesGroup ssm sm ⟨nd, key, .seq subs⟩
      = ((subs.map fun x => YItem.mk x .undef .undef).foldlM
          (substyleBinding ssm key) (sm, 0) >>= fun r => .ok r.1) := rfl
  rw [h0, substyleFold_eval ssm key c hkey subs vs sm 0 hsubs]
  simp only [ok_bind]
  rw [Int.add_zero]

theorem identifiersStep_eval (ed : Editor) (ck : YamlNode) (ids subs : List YamlNode)
    (c : Int) (nms : List String) (hck : asInt ck = .ok c)
    (hids : ids.mapM asString = .ok nms) :
    ∃ ed', identifiersStep ed (substyleDoc ck ids subs)
        = .ok ([(c, ed.allocResults.headD 0)], ed') := by
  obtain ⟨r, hr⟩ := identifierFold_ok (ed.allocResults.headD 0) ids nms
    ⟨ed.trace ++ [.allocateSubstyles c
        ((ids.map fun x => YItem.mk x .undef .undef).length) (ed.allocResults.headD 0)],
      ed.allocResults.tail⟩ 0 hids
  refine ⟨r.1, ?_⟩
  have h0 : identifiersStep ed (substyleDoc ck ids subs)
      = ((asInt ck >>= fun substyleId =>
          ((ids.map fun x => YItem.mk x .undef .undef).foldlM
              (identifierBinding (ed.allocResults.headD 0))
              (⟨ed.trace ++ [.allocateSubstyles substyleId
                  ((ids.map fun x => YItem.mk x .undef .undef).length)
                  (ed.allocResults.headD 0)],
                ed.allocResults.tail⟩, 0)
            >>= fun r => .ok ([(substyleId, ed.allocResults.headD 0)], r.1)))
        >>= fun st => List.foldlM identifiersGroup st []) := rfl
  rw [h0, hck]
  simp only [ok_bind]
  rw [hr]
  simp only [ok_bind]
  rfl

/-- C2 (amended): a `substyles` entry whose lexical-class id has no
corresponding `identifiers` group is anchored at start 0 (the
value-initialized miss of `substyleStartMap[classId]`): with no direct styles
present the layer's style map becomes exactly the pairs (0, v₀) … (N-1, v_{N-1}),
not the empty contribution the claim states; no error is raised. -/
theorem substyles_without_identifiers_anchor_zero (ed : Editor) (ck : YamlNode)
    (subs : List YamlNode) (c : Int) (vs : List Int)
    (hck : asInt ck = .ok c) (hsubs : subs.mapM asInt = .ok vs) :
    Except.map Prod.fst (_ApplyLanguage ed (.doc (orphanSubstyleDoc ck subs)))
      = .ok (stripe 0 vs) := by
  have h1 : _ApplyLanguage ed (.doc (orphanSubstyleDoc ck subs))
      = (substylesStep [] [] (orphanSubstyleDoc ck subs)
          >>= fun sm => .ok (sm, send ed (.setLexer 1))) := rfl
  have h2 : substylesStep [] [] (orphanSubstyleDoc ck subs)
      = (substylesGroup [] [] ⟨.undef, ck, .seq subs⟩
          >>= fun sm₁ => List.foldlM (substylesGroup []) sm₁ []) := rfl
  rw [h1, h2, substylesGroup_eval [] [] .undef ck subs c vs hck hsubs]
  simp only [ok_bind]
  rw [show umapGet [] c = 0 from rfl]
  rw [emplaceSeq_stripe vs [] 0 trivial]
  rfl

/-- Counterexample to C2 as stated: a `substyles` group for class 20 with no
`identifiers` group contributes the entries (0, 50) and (1, 51) to the layer's
style map instead of contributing nothing. -/
theorem substyles_without_identifiers_counterexample :
    Except.map Prod.fst (_ApplyLanguage ⟨[], []⟩
        (.doc (orphanSubstyleDoc (.scalar "20") [.scalar "50", .scalar "51"])))
      = .ok [((0 : Int), (50 : Int)), (1, 51)]
    ∧ Except.map Prod.fst (_ApplyLanguage ⟨[], []⟩
        (.doc (orphanSubstyleDoc (.scalar "20") [.scalar "50", .scalar "51"])))
      ≠ .ok ([] : SMap) := by
  refine ⟨by rfl, fun h => ?_⟩
  rw [show Except.map Prod.fst (_ApplyLanguage ⟨[], []⟩
      (.doc (orphanSubstyleDoc (.scalar "20") [.scalar "50", .scalar "51"])))
      = (.ok [((0 : Int), (50 : Int)), (1, 51)] : Except YamlError SMap) from by rfl] at h
  exact absurd (Except.ok.inj h) (by decide)

/-- Witness for the amended C2 at a concrete orphan substyle group. -/
theorem substyles_without_identifiers_anchor_zero_witness :
    Except.map Prod.fst (_ApplyLanguage ⟨[.freeSubstyles], [7]⟩
        (.doc (orphanSubstyleDoc (.scalar "30") [.scalar "60"])))
      = .ok [((0 : Int), (60 : Int))] :=
  substyles_without_identifiers_anchor_zero ⟨[.freeSubstyles], [7]⟩ (.scalar "30")
    [.scalar "60"] 30 [60] (by rfl) (by rfl)

/-- C3: for a lexical-class id whose identifier group has length N and whose
substyle allocation returned start S, a substyle group of N visual-style ids
for the same id yields a layer style map holding exactly the pairs
(S+0, v₀) … (S+N-1, v_{N-1}) in positional order. -/
theorem substyle_addressing (tr : List EditorCmd) (arest : List Int) (S c : Int)
    (ck : YamlNode) (ids subs : List YamlNode) (nms : List String) (vs : List Int)
    (hck : asInt ck = .ok c) (hids : ids.mapM asString = .ok nms)
    (hsubs : subs.mapM asInt = .ok vs) (_hlen : subs.length = ids.length) :
    Except.map Prod.fst (_ApplyLanguage ⟨tr, S :: arest⟩ (.doc (substyleDoc ck ids subs)))
      = .ok (stripe S vs) := by
  have h1 : _ApplyLanguage ⟨tr, S :: arest⟩ (.doc (substyleDoc ck ids subs))
      = (identifiersStep (send ⟨tr, S :: arest⟩ (.setLexer 1)) (substyleDoc ck ids subs)
          >>= fun r => commentsStep r.2 (substyleDoc ck ids subs)
          >>= fun ed => stylesStep (substyleDoc ck ids subs)
          >>= fun sm => substylesStep r.1 sm (substyleDoc ck ids subs)
          >>= fun sm => .ok (sm, ed)) := rfl
  obtain ⟨ed', hid⟩ := identifiersStep_eval (send ⟨tr, S :: arest⟩ (.setLexer 1))
    ck ids subs c nms hck hids
  have hid' : identifiersStep (send ⟨tr, S :: arest⟩ (.setLexer 1)) (substyleDoc ck ids subs)
      = .ok ([(c, S)], ed') := hid
  rw [h1, hid']
  simp only [ok_bind]
  have h2 : commentsStep ed' (substyleDoc ck ids subs) = .ok ed' := rfl
  rw [h2]
  simp only [ok_bind]
  rw [show stylesStep (substyleDoc ck ids subs) = .ok [] from rfl]
  simp only [ok_bind]
  have h3 : substylesStep [(c, S)] [] (substyleDoc ck ids subs)
      = (substylesGroup [(c, S)] [] ⟨.undef, ck, .seq subs⟩
          >>= fun sm₁ => List.foldlM (substylesGroup [(c, S)]) sm₁ []) := rfl
  rw [h3, substylesGroup_eval [(c, S)] [] .undef ck subs c vs hck hsubs]
  simp only [ok_bind]
  rw [show umapGet [(c, S)] c = S from by simp [umapGet, ifind]]
  rw [emplaceSeq_stripe vs [] S trivial]
  rfl

/-- Counterexample to C4 as stated: a layer whose document exists but fails
to parse is not swallowed — in both loops the `ParserException` escapes the
`catch (YAML::BadFile&)` and aborts the whole call, so the following good
layer is never reached and an error reaches the caller. -/
theorem parse_failure_not_swallowed :
    ApplyLanguage ⟨[], []⟩ [.malformed, .doc layerOneDoc] = .error .parserError
    ∧ LoadLanguages ⟨[], [], []⟩ [.malformed] = .error .parserError :=
  ⟨rfl, rfl⟩

/-- C4 (amended): in both `ApplyLanguage` and `LoadLanguages` a missing
document file (`YAML::BadFile`) is swallowed at layer granularity — that
layer contributes nothing and processing continues — but a document that
exists and fails to parse throws `ParserException`, which the
`catch (YAML::BadFile&)` does not cover: it aborts the remaining layers and
propagates to the caller. -/
theorem layer_failure_handling (acc : SMap) (ed : Editor) (ls : List LayerDoc)
    (cat : Catalog) :
    applyLoop acc ed (.absent :: ls) = applyLoop acc ed ls
    ∧ applyLoop acc ed (.malformed :: ls) = .error .parserError
    ∧ loadLoop cat (.absent :: ls) = loadLoop cat ls
    ∧ loadLoop cat (.malformed :: ls) = .error .parserError
    ∧ ApplyLanguage ed (.absent :: ls) = ApplyLanguage ed ls :=
  ⟨rfl, rfl, rfl, rfl, rfl⟩

theorem sfind_none_iff_scount {m : List (String × String)} {k : String} :
    sfind m k = none ↔ scount m k = 0 := by
  induction m with
  | nil => simp [sfind, scount]
  | cons kv rest ih =>
    obtain ⟨k', v'⟩ := kv
    by_cases hk : k = k'
    · subst hk
      simp [sfind, scount, List.filter_cons]
    · have hne : ¬ (k' = k) := fun h => hk h.symm
      simpa [sfind, scount, List.filter_cons, hk, hne] using ih

theorem sindex_of_find {m : List (String × String)} {k l : String}
    (h : sfind m k = some l) : sindex m k = (l, m) := by
  induction m with
  | nil => cases h
  | cons kv rest ih =>
    obtain ⟨k', v'⟩ := kv
    by_cases hk : k = k'
    · subst hk
      rw [show sfind ((k, v') :: rest) k = some v' from by simp [sfind]] at h
      cases h
      simp [sindex]
    · simp only [sfind, if_neg hk] at h
      simp only [sindex, if_neg hk]
      rw [ih h]

/-- C6: `GetLanguageForExtension` returns `true` and the catalog-mapped id
for a known extension, and `false` with the fallback id "text" for an unknown
one; in both cases the catalog is returned unmodified. -/
theorem getLanguageForExtension_spec (cat : Catalog) (ext : String) :
    (∀ l, sfind cat.sExtensions ext = some l →
        GetLanguageForExtension cat ext = (true, l, cat))
    ∧ (sfind cat.sExtensions ext = none →
        GetLanguageForExtension cat ext = (false, "text", cat)) := by
  constructor
  · intro l hl
    have hc : 0 < scount cat.sExtensions ext := by
      rcases Nat.eq_zero_or_pos (scount cat.sExtensions ext) with h0 | h0
      · rw [sfind_none_iff_scount.mpr h0] at hl
        cases hl
      · exact h0
    unfold GetLanguageForExtension
    rw [if_pos hc, sindex_of_find hl]
  · intro hn
    have hc : ¬ 0 < scount cat.sExtensions ext := by
      rw [sfind_none_iff_scount.mp hn]
      exact Nat.lt_irrefl 0
    unfold GetLanguageForExtension
    rw [if_neg hc]

/-- Witness for C6: lookup of a present and an absent extension. -/
theorem getLanguageForExtension_spec_witness :
    GetLanguageForExtension ⟨["cpp"], [("cpp", "C++")], [("cpp", "cpp"), ("h", "cpp")]⟩ "h"
        = (true, "cpp", ⟨["cpp"], [("cpp", "C++")], [("cpp", "cpp"), ("h", "cpp")]⟩)
    ∧ GetLanguageForExtension ⟨["cpp"], [("cpp", "C++")], [("cpp", "cpp"), ("h", "cpp")]⟩
          "doesnotexist"
        = (false, "text", ⟨["cpp"], [("cpp", "C++")], [("cpp", "cpp"), ("h", "cpp")]⟩) :=
  ⟨(getLanguageForExtension_spec ⟨["cpp"], [("cpp", "C++")], [("cpp", "cpp"), ("h", "cpp")]⟩
      "h").1 "cpp" (by rfl),
   (getLanguageForExtension_spec ⟨["cpp"], [("cpp", "C++")], [("cpp", "cpp"), ("h", "cpp")]⟩
      "doesnotexist").2 (by rfl)⟩

theorem sfind_sset (m : List (String × String)) (k v : String) (k' : String) :
    sfind (sset m k v) k' = if k' = k then some v else sfind m k' := by
  induction m with
  | nil =>
    simp [sset, sfind]
  | cons kv rest ih =>
    obtain ⟨a, b⟩ := kv
    by_cases hk : k = a
    · subst hk
      simp only [sset, if_pos rfl, sfind]
      by_cases hk' : k' = k <;> simp [hk']
    · simp only [sset, if_neg hk, sfind]
      by_cases hk' : k' = a
      · subst hk'
        have : ¬ k' = k := fun h => hk h.symm
        simp [this]
      · simp only [if_neg hk', ih]

theorem sfind_foldl_sset (exts : List String) (nm : String) :
    ∀ (m : List (String × String)) (e : String),
      sfind (exts.foldl (fun m x => sset m x nm) m) e
        = if e ∈ exts then some nm else sfind m e := by
  induction exts with
  | nil => simp
  | cons x exts ih =>
    intro m e
    rw [List.foldl_cons, ih (sset m x nm) e, sfind_sset]
    by_cases hx : e ∈ exts
    · simp [hx, List.mem_cons]
    · by_cases he : e = x <;> simp [hx, he, List.mem_cons]

/-- C7: processing one catalog entry in `_LoadLanguages` overwrites every
listed extension's index mapping (so across layers the last claimant wins),
appends the language id to the ordered known-ids list only when it is not
already present (order of first appearance), and overwrites the display name
for that id (last definer wins). -/
theorem catalog_entry_update (cat : Catalog) (item : YItem) (nm menuitem : String)
    (exts : List String) (hn : asString item.key = .ok nm)
    (hm : asString (yamlGet item.val "name") = .ok menuitem)
    (he : asStringList (yamlGet item.val "extensions") = .ok exts) :
    ∃ cat', loadLanguagesEntry cat item = .ok cat'
      ∧ (∀ e, sfind cat'.sExtensions e
          = if e ∈ exts then some nm else sfind cat.sExtensions e)
      ∧ cat'.sLanguages
          = (if nm ∈ cat.sLanguages then cat.sLanguages else cat.sLanguages ++ [nm])
      ∧ (∀ l, sfind cat'.sMenuItems l
          = if l = nm then some menuitem else sfind cat.sMenuItems l) := by
  have h : loadLanguagesEntry cat item
      = .ok ⟨(if nm ∈ cat.sLanguages then cat.sLanguages else cat.sLanguages ++ [nm]),
             sset cat.sMenuItems nm menuitem,
             exts.foldl (fun m e => sset m e nm) cat.sExtensions⟩ := by
    simp only [loadLanguagesEntry]
    rw [hn]
    simp only [ok_bind]
    rw [hm]
    simp only [ok_bind]
    rw [he]
    simp only [ok_bind]
  exact ⟨_, h, fun e => sfind_foldl_sset exts nm cat.sExtensions e, rfl,
    fun l => sfind_sset cat.sMenuItems nm menuitem l⟩

/-- Witness for C7 at a concrete catalog entry that reclaims extension "cpp",
adds the fresh id "rust" and sets its display name. -/
theorem catalog_entry_update_witness :
    ∃ cat', loadLanguagesEntry ⟨["cpp"], [("cpp", "C++")], [("cpp", "cpp")]⟩
        ⟨.undef, .scalar "rust",
          .ymap [(.scalar "name", .scalar "Rust"),
                 (.scalar "extensions", .seq [.scalar "rs", .scalar "cpp"])]⟩ = .ok cat'
      ∧ (∀ e, sfind cat'.sExtensions e
          = if e ∈ ["rs", "cpp"] then some "rust" else sfind [("cpp", "cpp")] e)
      ∧ cat'.sLanguages = (if "rust" ∈ ["cpp"] then ["cpp"] else ["cpp"] ++ ["rust"])
      ∧ (∀ l, sfind cat'.sMenuItems l
          = if l = "rust" then some "Rust" else sfind [("cpp", "C++")] l) :=
  catalog_entry_update ⟨["cpp"], [("cpp", "C++")], [("cpp", "cpp")]⟩
    ⟨.undef, .scalar "rust",
      .ymap [(.scalar "name", .scalar "Rust"),
             (.scalar "extensions", .seq [.scalar "rs", .scalar "cpp"])]⟩
    "rust" "Rust" ["rs", "cpp"] (by rfl) (by rfl) (by rfl)

/-- Witness for C3: identifier group of length 3 with allocation start 128 and
substyle ids 40, 41, 42 yields exactly (128,40), (129,41), (130,42). -/
theorem substyle_addressing_witness :
    Except.map Prod.fst (_ApplyLanguage ⟨[], [128]⟩
        (.doc (substyleDoc (.scalar "11") [.scalar "x", .scalar "y", .scalar "z"]
          [.scalar "40", .scalar "41", .scalar "42"])))
      = .ok [((128 : Int), (40 : Int)), (129, 41), (130, 42)] :=
  substyle_addressing [] [] 128 11 (.scalar "11")
    [.scalar "x", .scalar "y", .scalar "z"] [.scalar "40", .scalar "41", .scalar "42"]
    ["x", "y", "z"] [40, 41, 42] (by rfl) (by rfl) (by rfl) (by rfl)

theorem emitsOnly_refl (P : EditorCmd → Prop) (ed : Editor) : EmitsOnly P ed ed :=
  ⟨[], (List.append_nil _).symm, by simp⟩

theorem emitsOnly_trans {P : EditorCmd → Prop} {ed ed₁ ed₂ : Editor}
    (h1 : EmitsOnly P ed ed₁) (h2 : EmitsOnly P ed₁ ed₂) : EmitsOnly P ed ed₂ := by
  obtain ⟨n1, e1, p1⟩ := h1
  obtain ⟨n2, e2, p2⟩ := h2
  refine ⟨n1 ++ n2, by rw [e2, e1, List.append_assoc], fun c hc => ?_⟩
  rcases List.mem_append.mp hc with h | h
  · exact p1 c h
  · exact p2 c h

theorem emitsOnly_mono {P Q : EditorCmd → Prop} (hpq : ∀ c, P c → Q c)
    {ed ed' : Editor} (h : EmitsOnly P ed ed') : EmitsOnly Q ed ed' := by
  obtain ⟨n, e, p⟩ := h
  exact ⟨n, e, fun c hc => hpq c (p c hc)⟩

theorem emitsOnly_send {P : EditorCmd → Prop} {c : EditorCmd} (ed : Editor)
    (hc : P c) : EmitsOnly P ed (send ed c) :=
  ⟨[c], rfl, by simpa⟩

theorem propertyItem_emits {ed : Editor} {it : YItem} {ed' : Editor}
    (h : propertyItem ed it = .ok ed') : EmitsOnly NonLexCmd ed ed' := by
  simp only [propertyItem, bind_ok_iff] at h
  obtain ⟨nm, _, v, _, h⟩ := h
  cases h
  exact emitsOnly_send ed ⟨rfl, nofun⟩

theorem keywordItem_emits {ed : Editor} {it : YItem} {ed' : Editor}
    (h : keywordItem ed it = .ok ed') : EmitsOnly NonLexCmd ed ed' := by
  simp only [keywordItem, bind_ok_iff] at h
  obtain ⟨n, _, w, _, h⟩ := h
  cases h
  exact emitsOnly_send ed ⟨rfl, nofun⟩

theorem foldlM_emits {f : Editor → YItem → Except YamlError Editor}
    {P : EditorCmd → Prop}
    (hf : ∀ ed it ed', f ed it = .ok ed' → EmitsOnly P ed ed') :
    ∀ (its : List YItem) (ed ed' : Editor),
      its.foldlM f ed = .ok ed' → EmitsOnly P ed ed' := by
  intro its
  induction its with
  | nil =>
    intro ed ed' h
    cases h
    exact emitsOnly_refl P ed
  | cons it its ih =>
    intro ed ed' h
    simp only [List.foldlM_cons, bind_ok_iff] at h
    obtain ⟨ed₁, h1, h2⟩ := h
    exact emitsOnly_trans (hf ed it ed₁ h1) (ih ed₁ ed' h2)

theorem propertiesStep_emits {ed : Editor} {lang : YamlNode} {ed' : Editor}
    (h : propertiesStep ed lang = .ok ed') : EmitsOnly NonLexCmd ed ed' :=
  foldlM_emits (fun _ _ _ hh => propertyItem_emits hh) _ ed ed' h

theorem keywordsStep_emits {ed : Editor} {lang : YamlNode} {ed' : Editor}
    (h : keywordsStep ed lang = .ok ed') : EmitsOnly NonLexCmd ed ed' :=
  foldlM_emits (fun _ _ _ hh => keywordItem_emits hh) _ ed ed' h

theorem identifierBinding_emits {start : Int} {st : Editor × Int} {el : YItem}
    {r : Editor × Int} (h : identifierBinding start st el = .ok r) :
    EmitsOnly NonLexCmd st.1 r.1 := by
  simp only [identifierBinding, bind_ok_iff] at h
  obtain ⟨s, _, h⟩ := h
  cases h
  exact emitsOnly_send st.1 ⟨rfl, nofun⟩

theorem identifierFold_emits {start : Int} :
    ∀ (xs : List YItem) (st r : Editor × Int),
      xs.foldlM (identifierBinding start) st = .ok r → EmitsOnly NonLexCmd st.1 r.1 := by
  intro xs
  induction xs with
  | nil =>
    intro st r h
    cases h
    exact emitsOnly_refl _ _
  | cons x xs ih =>
    intro st r h
    simp only [List.foldlM_cons, bind_ok_iff] at h
    obtain ⟨st₁, h1, h2⟩ := h
    exact emitsOnly_trans (identifierBinding_emits h1) (ih st₁ r h2)

theorem identifiersGroup_emits {st : List (Int × Int) × Editor} {it : YItem}
    {st' : List (Int × Int) × Editor} (h : identifiersGroup st it = .ok st') :
    EmitsOnly NonLexCmd st.2 st'.2 := by
  simp only [identifiersGroup] at h
  split at h
  · simp only [bind_ok_iff, allocSubstyles] at h
    obtain ⟨c, _, r, hfold, h⟩ := h
    cases h
    have h1 : EmitsOnly NonLexCmd st.2
        ⟨st.2.trace ++ [.allocateSubstyles c (yamlItems it.val).length
          (st.2.allocResults.headD 0)], st.2.allocResults.tail⟩ := by
      refine ⟨[.allocateSubstyles c (yamlItems it.val).length
        (st.2.allocResults.headD 0)], rfl, fun c' hc' => ?_⟩
      rw [List.mem_singleton] at hc'
      subst hc'
      exact ⟨rfl, nofun⟩
    have h2 := identifierFold_emits (yamlItems it.val)
      (⟨st.2.trace ++ [.allocateSubstyles c (yamlItems it.val).length
        (st.2.allocResults.headD 0)], st.2.allocResults.tail⟩, 0) r hfold
    exact emitsOnly_trans h1 h2
  · cases h
    exact emitsOnly_refl _ _

theorem identifiersFold_emits :
    ∀ (its : List YItem) (st st' : List (Int × Int) × Editor),
      its.foldlM identifiersGroup st = .ok st' → EmitsOnly NonLexCmd st.2 st'.2 := by
  intro its
  induction its with
  | nil =>
    intro st st' h
    cases h
    exact emitsOnly_refl _ _
  | cons it its ih =>
    intro st st' h
    simp only [List.foldlM_cons, bind_ok_iff] at h
    obtain ⟨st₁, h1, h2⟩ := h
    exact emitsOnly_trans (identifiersGroup_emits h1) (ih st₁ st' h2)

theorem identifiersStep_emits {ed : Editor} {lang : YamlNode}
    {st : List (Int × Int) × Editor} (h : identifiersStep ed lang = .ok st) :
    EmitsOnly NonLexCmd ed st.2 := by
  simp only [identifiersStep] at h
  split at h
  · exact identifiersFold_emits _ ([], ed) st h
  · cases h
    exact emitsOnly_refl _ _

theorem commentLinePart_emits {ed : Editor} {com : YamlNode} {ed' : Editor}
    (h : commentLinePart ed com = .ok ed') : EmitsOnly NonLexCmd ed ed' := by
  simp only [commentLinePart] at h
  split at h
  · simp only [bind_ok_iff] at h
    obtain ⟨s, _, h⟩ := h
    cases h
    exact emitsOnly_send ed ⟨rfl, nofun⟩
  · cases h
    exact emitsOnly_refl _ _

theorem commentBlockPart_emits {ed : Editor} {com : YamlNode} {ed' : Editor}
    (h : commentBlockPart ed com = .ok ed') : EmitsOnly NonLexCmd ed ed' := by
  simp only [commentBlockPart] at h
  split at h
  · simp only [bind_ok_iff] at h
    obtain ⟨o, _, cl, _, h⟩ := h
    cases h
    exact emitsOnly_send ed ⟨rfl, nofun⟩
  · cases h
    exact emitsOnly_refl _ _

theorem commentsStep_emits {ed : Editor} {lang : YamlNode} {ed' : Editor}
    (h : commentsStep ed lang = .ok ed') : EmitsOnly NonLexCmd ed ed' := by
  simp only [commentsStep] at h
  split at h
  · simp only [bind_ok_iff] at h
    obtain ⟨ed₁, h1, h2⟩ := h
    exact emitsOnly_trans (commentLinePart_emits h1) (commentBlockPart_emits h2)
  · cases h
    exact emitsOnly_refl _ _

theorem lexerStep_trace {ed : Editor} {lang : YamlNode} {ed' : Editor}
    (h : lexerStep ed lang = .ok ed') :
    ∃ cmd, ed'.trace = ed.trace ++ [cmd] ∧ isLexerSel cmd = true
      ∧ cmd ≠ .freeSubstyles := by
  unfold lexerStep at h
  split at h
  next n heq =>
    cases h
    exact ⟨.setLexer n, rfl, rfl, nofun⟩
  next e₀ heq =>
    split at h
    · split at h
      next s heq₂ =>
        cases h
        exact ⟨.setLexerLanguage s, rfl, rfl, nofun⟩
      next e₁ heq₂ => cases h
    · cases h

theorem _ApplyLanguage_trace {ed : Editor} {file : LayerDoc} {m : SMap} {ed' : Editor}
    (h : _ApplyLanguage ed file = .ok (m, ed')) :
    ∃ cmd new, ed'.trace = ed.trace ++ (cmd :: new) ∧ isLexerSel cmd = true
      ∧ cmd ≠ .freeSubstyles ∧ ∀ c ∈ new, NonLexCmd c := by
  unfold _ApplyLanguage at h
  simp only [bind_ok_iff] at h
  obtain ⟨lang, _, ed₁, hlex, ed₂, hprop, ed₃, hkw, r, hid, ed₄, hcom, sm₀, _,
    sm₁, _, hfin⟩ := h
  cases hfin
  obtain ⟨cmd, hcmd, hsel, hfree⟩ := lexerStep_trace hlex
  have e25 : EmitsOnly NonLexCmd ed₁ ed' :=
    emitsOnly_trans (propertiesStep_emits hprop)
      (emitsOnly_trans (keywordsStep_emits hkw)
        (emitsOnly_trans (identifiersStep_emits hid) (commentsStep_emits hcom)))
  obtain ⟨new, hnew, hp⟩ := e25
  refine ⟨cmd, new, ?_, hsel, hfree, hp⟩
  rw [hnew, hcmd, List.append_assoc]
  rfl

theorem asInt_no_badFile {n : YamlNode} {e : YamlError} (h : asInt n = .error e) :
    e ≠ .badFile := by
  cases n with
  | undef =>
    cases h
    nofun
  | scalar s =>
    cases hp : parseInt s with
    | some m =>
      rw [show asInt (.scalar s) = .ok m from by simp [asInt, hp]] at h
      cases h
    | none =>
      rw [show asInt (.scalar s) = .error .typedBadConversionInt from by
        simp [asInt, hp]] at h
      cases h
      nofun
  | seq xs =>
    cases h
    nofun
  | ymap kvs =>
    cases h
    nofun

theorem asString_no_badFile {n : YamlNode} {e : YamlError} (h : asString n = .error e) :
    e ≠ .badFile := by
  cases n with
  | undef =>
    cases h
    nofun
  | scalar s => cases h
  | seq xs =>
    cases h
    nofun
  | ymap kvs =>
    cases h
    nofun

theorem lexerStep_no_badFile {ed : Editor} {lang : YamlNode} {e : YamlError}
    (h : lexerStep ed lang = .error e) : e ≠ .badFile := by
  unfold lexerStep at h
  split at h
  next n heq => cases h
  next e₀ heq =>
    split at h
    · split at h
      next s heq₂ => cases h
      next e₁ heq₂ =>
        cases h
        exact asString_no_badFile heq₂
    · cases h
      exact asInt_no_badFile heq

/-- C5: for every per-language document, exactly one lexer-selection command
is issued: `SCI_SETLEXER` when the `lexer` field's scalar parses as an
integer, otherwise `SCI_SETLEXERLANGUAGE` with the scalar's text; and a
`lexer` field on which both conversions fail makes the error propagate out of
the whole resolution loop instead of being swallowed. -/
theorem lexer_selection (ed : Editor) (d : YamlNode) :
    (∀ s n, yamlGet d "lexer" = .scalar s → parseInt s = some n →
        lexerStep ed d = .ok (send ed (.setLexer n)))
    ∧ (∀ s, yamlGet d "lexer" = .scalar s → parseInt s = none →
        lexerStep ed d = .ok (send ed (.setLexerLanguage s)))
    ∧ (∀ m ed', _ApplyLanguage ed (.doc d) = .ok (m, ed') →
        countLexerSel ed'.trace = countLexerSel ed.trace + 1)
    ∧ (∀ e acc ls, lexerStep ed d = .error e →
        applyLoop acc ed (.doc d :: ls) = .error e) := by
  refine ⟨?_, ?_, ?_, ?_⟩
  · intro s n hs hn
    unfold lexerStep
    rw [hs, show asInt (.scalar s) = .ok n from by simp [asInt, hn]]
  · intro s hs hn
    unfold lexerStep
    rw [hs, show asInt (.scalar s) = .error .typedBadConversionInt from by
      simp [asInt, hn]]
    rfl
  · intro m ed' h
    obtain ⟨cmd, new, htr, hsel, _, hnl⟩ := _ApplyLanguage_trace h
    unfold countLexerSel
    rw [htr, List.countP_append, List.countP_cons]
    have hz : new.countP (fun c => isLexerSel c) = 0 := by
      rw [List.countP_eq_zero]
      intro c hc
      simp [(hnl c hc).1]
    simp [hz, hsel]
  · intro e acc ls hlex
    have hem : _ApplyLanguage ed (.doc d) = .error e := by
      unfold _ApplyLanguage
      rw [show loadFile (.doc d) = .ok d from rfl]
      simp only [ok_bind]
      rw [hlex]
      rfl
    simp only [applyLoop, hem]
    rw [if_neg (lexerStep_no_badFile hlex)]

/-- Witness for C5: the integer selector of layer 1's document issues
`SCI_SETLEXER` and the symbolic selector of layer 2's document issues
`SCI_SETLEXERLANGUAGE`. -/
theorem lexer_selection_witness :
    lexerStep ⟨[], []⟩ layerOneDoc = .ok (send ⟨[], []⟩ (.setLexer 1))
    ∧ lexerStep ⟨[], []⟩ layerTwoDoc = .ok (send ⟨[], []⟩ (.setLexerLanguage "cpp")) :=
  ⟨(lexer_selection ⟨[], []⟩ layerOneDoc).1 "1" 1 (by rfl) (by rfl),
   (lexer_selection ⟨[], []⟩ layerTwoDoc).2.1 "cpp" (by rfl) (by rfl)⟩

theorem send_shiftEd (t : List EditorCmd) (ed : Editor) (c : EditorCmd) :
    send (shiftEd t ed) c = shiftEd t (send ed c) := by
  simp [send, shiftEd, List.append_assoc]

theorem allocSubstyles_shift (t : List EditorCmd) (ed : Editor) (c : Int) (n : Nat) :
    allocSubstyles (shiftEd t ed) c n
      = ((allocSubstyles ed c n).1, shiftEd t (allocSubstyles ed c n).2) := by
  simp [allocSubstyles, shiftEd, List.append_assoc]

theorem lexerStep_shift (t : List EditorCmd) (ed : Editor) (lang : YamlNode) :
    lexerStep (shiftEd t ed) lang = Except.map (shiftEd t) (lexerStep ed lang) := by
  unfold lexerStep
  cases hx : asInt (yamlGet lang "lexer") with
  | ok n => simp [send_shiftEd, Except.map]
  | error e =>
    by_cases he : e = .typedBadConversionInt
    · subst he
      simp only [if_pos rfl]
      cases hy : asString (yamlGet lang "lexer") with
      | ok s => simp [send_shiftEd, Except.map]
      | error e' => simp [Except.map]
    · simp [if_neg he, Except.map]

theorem propertyItem_shift (t : List EditorCmd) (ed : Editor) (it : YItem) :
    propertyItem (shiftEd t ed) it = Except.map (shiftEd t) (propertyItem ed it) := by
  unfold propertyItem
  cases h1 : asString it.key with
  | error e => rfl
  | ok nm =>
    simp only [ok_bind]
    cases h2 : asString it.val with
    | error e => rfl
    | ok v => simp [ok_bind, send_shiftEd, Except.map]

theorem keywordItem_shift (t : List EditorCmd) (ed : Editor) (it : YItem) :
    keywordItem (shiftEd t ed) it = Except.map (shiftEd t) (keywordItem ed it) := by
  unfold keywordItem
  cases h1 : asInt it.key with
  | error e => rfl
  | ok n =>
    simp only [ok_bind]
    cases h2 : asString it.val with
    | error e => rfl
    | ok v => simp [ok_bind, send_shiftEd, Except.map]

theorem foldlM_shift {f : Editor → YItem → Except YamlError Editor}
    (hf : ∀ t ed it, f (shiftEd t ed) it = Except.map (shiftEd t) (f ed it)) :
    ∀ (its : List YItem) (t : List EditorCmd) (ed : Editor),
      its.foldlM f (shiftEd t ed) = Except.map (shiftEd t) (its.foldlM f ed) := by
  intro its
  induction its with
  | nil => intro t ed; rfl
  | cons it its ih =>
    intro t ed
    simp only [List.foldlM_cons]
    rw [hf, map_bind]
    cases h : f ed it with
    | error e => rfl
    | ok ed₁ =>
      simp only [ok_bind]
      exact ih t ed₁

theorem propertiesStep_shift (t : List EditorCmd) (ed : Editor) (lang : YamlNode) :
    propertiesStep (shiftEd t ed) lang = Except.map (shiftEd t) (propertiesStep ed lang) :=
  foldlM_shift propertyItem_shift _ t ed

theorem keywordsStep_shift (t : List EditorCmd) (ed : Editor) (lang : YamlNode) :
    keywordsStep (shiftEd t ed) lang = Except.map (shiftEd t) (keywordsStep ed lang) :=
  foldlM_shift keywordItem_shift _ t ed

theorem identifierBinding_shift (start : Int) (t : List EditorCmd) (ed : Editor)
    (i : Int) (el : YItem) :
    identifierBinding start (shiftEd t ed, i) el
      = Except.map (fun r => (shiftEd t r.1, r.2)) (identifierBinding start (ed, i) el) := by
  unfold identifierBinding
  cases h : asString el.node with
  | error e => rfl
  | ok s => simp [ok_bind, send_shiftEd, Except.map]

theorem identifierFold_shift (start : Int) :
    ∀ (xs : List YItem) (t : List EditorCmd) (ed : Editor) (i : Int),
      xs.foldlM (identifierBinding start) (shiftEd t ed, i)
        = Except.map (fun r => (shiftEd t r.1, r.2))
            (xs.foldlM (identifierBinding start) (ed, i)) := by
  intro xs
  induction xs with
  | nil => intro t ed i; rfl
  | cons x xs ih =>
    intro t ed i
    simp only [List.foldlM_cons]
    rw [identifierBinding_shift, map_bind]
    cases h : identifierBinding start (ed, i) x with
    | error e => rfl
    | ok r =>
      obtain ⟨ed₁, i₁⟩ := r
      simp only [ok_bind]
      exact ih t ed₁ i₁

theorem identifiersGroup_shift (t : List EditorCmd) (ssm : List (Int × Int))
    (ed : Editor) (it : YItem) :
    identifiersGroup (ssm, shiftEd t ed) it
      = Except.map (fun st => (st.1, shiftEd t st.2)) (identifiersGroup (ssm, ed) it) := by
  unfold identifiersGroup
  by_cases hseq : isSequence it.val = true
  · simp only [if_pos hseq]
    cases hk : asInt it.key with
    | error e => rfl
    | ok c =>
      simp only [ok_bind]
      rw [allocSubstyles_shift]
      simp only [identifierFold_shift, map_bind, bind_map, map_ok, ok_bind]
  · simp only [if_neg hseq, Except.map]

theorem identifiersFold_shift :
    ∀ (its : List YItem) (t : List EditorCmd) (ssm : List (Int × Int)) (ed : Editor),
      its.foldlM identifiersGroup (ssm, shiftEd t ed)
        = Except.map (fun st => (st.1, shiftEd t st.2))
            (its.foldlM identifiersGroup (ssm, ed)) := by
  intro its
  induction its with
  | nil => intro t ssm ed; rfl
  | cons it its ih =>
    intro t ssm ed
    simp only [List.foldlM_cons]
    rw [identifiersGroup_shift, map_bind]
    cases h : identifiersGroup (ssm, ed) it with
    | error e => rfl
    | ok st =>
      obtain ⟨ssm₁, ed₁⟩ := st
      simp only [ok_bind]
      exact ih t ssm₁ ed₁

theorem identifiersStep_shift (t : List EditorCmd) (ed : Editor) (lang : YamlNode) :
    identifiersStep (shiftEd t ed) lang
      = Except.map (fun st => (st.1, shiftEd t st.2)) (identifiersStep ed lang) := by
  unfold identifiersStep
  by_cases hc : (isDefined (yamlGet lang "identifiers")
      && isYMap (yamlGet lang "identifiers")) = true
  · simp only [if_pos hc]
    exact identifiersFold_shift _ t [] ed
  · simp only [if_neg hc, Except.map]

theorem commentLinePart_shift (t : List EditorCmd) (ed : Editor) (com : YamlNode) :
    commentLinePart (shiftEd t ed) com = Except.map (shiftEd t) (commentLinePart ed com) := by
  unfold commentLinePart
  by_cases hd : isDefined (yamlGet com "line") = true
  · simp only [if_pos hd]
    cases h : asString (yamlGet com "line") with
    | error e => rfl
    | ok s => simp [ok_bind, send_shiftEd, Except.map]
  · simp only [if_neg hd, Except.map]

theorem commentBlockPart_shift (t : List EditorCmd) (ed : Editor) (com : YamlNode) :
    commentBlockPart (shiftEd t ed) com
      = Except.map (shiftEd t) (commentBlockPart ed com) := by
  unfold commentBlockPart
  by_cases hd : (isDefined (yamlGet com "block") && isSequence (yamlGet com "block")) = true
  · simp only [if_pos hd]
    cases h0 : asString (yamlGetAt (yamlGet com "block") 0) with
    | error e => rfl
    | ok o =>
      simp only [ok_bind]
      cases h1 : asString (yamlGetAt (yamlGet com "block") 1) with
      | error e => rfl
      | ok cl => simp [ok_bind, send_shiftEd, Except.map]
  · simp only [if_neg hd, Except.map]

theorem commentsStep_shift (t : List EditorCmd) (ed : Editor) (lang : YamlNode) :
    commentsStep (shiftEd t ed) lang = Except.map (shiftEd t) (commentsStep ed lang) := by
  unfold commentsStep
  by_cases hd : isDefined (yamlGet lang "comments") = true
  · simp only [if_pos hd]
    rw [commentLinePart_shift, map_bind, bind_map]
    refine bind_congr' fun ed₁ => ?_
    exact commentBlockPart_shift t ed₁ _
  · simp only [if_neg hd, Except.map]

theorem _ApplyLanguage_shift (t : List EditorCmd) (ed : Editor) (file : LayerDoc) :
    _ApplyLanguage (shiftEd t ed) file
      = Except.map (fun r => (r.1, shiftEd t r.2)) (_ApplyLanguage ed file) := by
  unfold _ApplyLanguage
  cases hl : loadFile file with
  | error e => rfl
  | ok lang =>
    simp only [ok_bind]
    rw [lexerStep_shift, map_bind, bind_map]
    refine bind_congr' fun ed₁ => ?_
    rw [propertiesStep_shift, map_bind, bind_map]
    refine bind_congr' fun ed₂ => ?_
    rw [keywordsStep_shift, map_bind, bind_map]
    refine bind_congr' fun ed₃ => ?_
    rw [identifiersStep_shift, map_bind, bind_map]
    refine bind_congr' fun r => ?_
    dsimp only
    rw [commentsStep_shift, map_bind, bind_map]
    refine bind_congr' fun ed₄ => ?_
    rw [bind_map]
    refine bind_congr' fun sm => ?_
    rw [bind_map]
    refine bind_congr' fun sm' => ?_
    rfl

theorem applyLoop_shift :
    ∀ (ls : List LayerDoc) (acc : SMap) (t : List EditorCmd) (ed : Editor),
      applyLoop acc (shiftEd t ed) ls
        = Except.map (fun r => (r.1, shiftEd t r.2)) (applyLoop acc ed ls) := by
  intro ls
  induction ls with
  | nil => intro acc t ed; rfl
  | cons l ls ih =>
    intro acc t ed
    simp only [applyLoop]
    rw [_ApplyLanguage_shift]
    cases h : _ApplyLanguage ed l with
    | ok p =>
      obtain ⟨m, ed₁⟩ := p
      simp only [Except.map]
      exact ih (smapMerge m acc) t ed₁
    | error e =>
      simp only [Except.map]
      by_cases hb : e = .badFile
      · rw [if_pos hb, if_pos hb]
        exact ih acc t ed
      · rw [if_neg hb, if_neg hb]

theorem ApplyLanguage_shift (t : List EditorCmd) (ed : Editor) (ls : List LayerDoc) :
    ApplyLanguage (shiftEd t ed) ls
      = Except.map (fun r => (r.1, shiftEd t r.2)) (ApplyLanguage ed ls) := by
  unfold ApplyLanguage
  rw [send_shiftEd, applyLoop_shift]

theorem applyLoop_trace :
    ∀ (ls : List LayerDoc) (acc : SMap) (ed : Editor) (m : SMap) (ed' : Editor),
      applyLoop acc ed ls = .ok (m, ed') →
      EmitsOnly (fun c => c ≠ .freeSubstyles) ed ed' := by
  intro ls
  induction ls with
  | nil =>
    intro acc ed m ed' h
    cases h
    exact emitsOnly_refl _ _
  | cons l ls ih =>
    intro acc ed m ed' h
    simp only [applyLoop] at h
    split at h
    next m₁ ed₁ heq =>
      obtain ⟨cmd, new, htr, _, hfree, hnl⟩ := _ApplyLanguage_trace heq
      have e1 : EmitsOnly (fun c => c ≠ .freeSubstyles) ed ed₁ := by
        refine ⟨cmd :: new, htr, fun c hc => ?_⟩
        rcases List.mem_cons.mp hc with rfl | hc
        · exact hfree
        · exact (hnl c hc).2
      exact emitsOnly_trans e1 (ih _ ed₁ m ed' h)
    next e heq =>
      split at h
      · exact ih acc ed m ed' h
      · cases h

/-- C8: every `ApplyLanguage` call sends the substyle reset exactly once,
before anything else — the new trace is `freeSubstyles` followed by
reset-free commands — and the resolved style map does not depend on anything
recorded in the editor's trace before the call: with the same allocation
results, any two prior traces give the same map. -/
theorem applyLanguage_reset_first (t₁ t₂ : List EditorCmd) (a : List Int)
    (ls : List LayerDoc) :
    (∀ m ed', ApplyLanguage ⟨t₁, a⟩ ls = .ok (m, ed') →
      ∃ rest, ed'.trace = t₁ ++ [EditorCmd.freeSubstyles] ++ rest
        ∧ EditorCmd.freeSubstyles ∉ rest)
    ∧ Except.map Prod.fst (ApplyLanguage ⟨t₁, a⟩ ls)
        = Except.map Prod.fst (ApplyLanguage ⟨t₂, a⟩ ls) := by
  constructor
  · intro m ed' h
    unfold ApplyLanguage at h
    obtain ⟨new, hnew, hp⟩ := applyLoop_trace ls [] (send ⟨t₁, a⟩ .freeSubstyles) m ed' h
    refine ⟨new, ?_, fun hmem => hp _ hmem rfl⟩
    rw [hnew]
    rfl
  · have h1 : (⟨t₁, a⟩ : Editor) = shiftEd t₁ ⟨[], a⟩ := by simp [shiftEd]
    have h2 : (⟨t₂, a⟩ : Editor) = shiftEd t₂ ⟨[], a⟩ := by simp [shiftEd]
    rw [h1, h2, ApplyLanguage_shift, ApplyLanguage_shift, except_map_map, except_map_map]

/-- Witness for C8: a single-layer call starting from an empty trace produces
the reset first, followed by reset-free commands. -/
theorem applyLanguage_reset_first_witness :
    ∃ rest, ([EditorCmd.freeSubstyles, EditorCmd.setLexer 1] : List EditorCmd)
        = [] ++ [EditorCmd.freeSubstyles] ++ rest
      ∧ EditorCmd.freeSubstyles ∉ rest :=
  (applyLanguage_reset_first [] [.setLexer 5] [] [.doc layerOneDoc]).1
    [(0, 10), (1, 11)] ⟨[.freeSubstyles, .setLexer 1], []⟩ (by rfl)

/-- Counterexample to C9 as stated: a `comments.block` sequence with a single
element is not ignored — `block[1]` is the undefined node, its string
conversion raises `InvalidNode`, and the error escapes the whole per-language
application instead of being skipped. -/
theorem block_comment_wrong_arity_errors :
    _ApplyLanguage ⟨[], []⟩ (.doc arityOneBlockDoc) = .error .invalidNode := rfl

/-- C9 (amended): in the `comments` section a `comments.line` string is
registered as the line-comment token and a `comments.block` value that is not
a sequence is ignored without error; but a block sequence of arity 0 or 1 is
not ignored — indexing past its end yields the undefined node and the string
conversion raises `InvalidNode`, which propagates; a sequence with at least
two string elements registers the first two as the block pair. -/
theorem comments_handling (ed : Editor) (lang com : YamlNode)
    (hcom : yamlGet lang "comments" = com) (hdef : isDefined com = true) :
    (∀ s b, yamlGet com "line" = .scalar s → yamlGet com "block" = b →
        (isDefined b && isSequence b) = false →
        commentsStep ed lang = .ok (send ed (.setCommentLine s)))
    ∧ (∀ x s, yamlGet com "line" = .undef → yamlGet com "block" = .seq [x] →
        asString x = .ok s → commentsStep ed lang = .error .invalidNode)
    ∧ (yamlGet com "line" = .undef → yamlGet com "block" = .seq [] →
        commentsStep ed lang = .error .invalidNode)
    ∧ (∀ o cl rest, yamlGet com "line" = .undef →
        yamlGet com "block" = .seq (.scalar o :: .scalar cl :: rest) →
        commentsStep ed lang = .ok (send ed (.setCommentBlock o cl))) := by
  refine ⟨?_, ?_, ?_, ?_⟩
  · intro s b hline hblock hbf
    unfold commentsStep
    rw [hcom, if_pos hdef]
    rw [show commentLinePart ed com = .ok (send ed (.setCommentLine s)) from by
      simp [commentLinePart, hline, isDefined, asString, ok_bind]]
    rw [ok_bind]
    simp [commentBlockPart, hblock, hbf]
  · intro x s hline hblock hx
    unfold commentsStep
    rw [hcom, if_pos hdef]
    rw [show commentLinePart ed com = .ok ed from by
      simp [commentLinePart, hline, isDefined]]
    rw [ok_bind]
    unfold commentBlockPart
    rw [hblock]
    show (do
        let o ← asString (yamlGetAt (YamlNode.seq [x]) 0)
        let c ← asString (yamlGetAt (YamlNode.seq [x]) 1)
        Except.ok (send ed (EditorCmd.setCommentBlock o c)))
      = (Except.error YamlError.invalidNode : Except YamlError Editor)
    rw [show asString (yamlGetAt (YamlNode.seq [x]) 0) = .ok s from hx, ok_bind]
    rfl
  · intro hline hblock
    unfold commentsStep
    rw [hcom, if_pos hdef]
    rw [show commentLinePart ed com = .ok ed from by
      simp [commentLinePart, hline, isDefined]]
    rw [ok_bind]
    unfold commentBlockPart
    rw [hblock]
    rfl
  · intro o cl rest hline hblock
    unfold commentsStep
    rw [hcom, if_pos hdef]
    rw [show commentLinePart ed com = .ok ed from by
      simp [commentLinePart, hline, isDefined]]
    rw [ok_bind]
    unfold commentBlockPart
    rw [hblock]
    rfl

/-- Witness for the amended C9: a line token is registered and a non-sequence
block is ignored without error. -/
theorem comments_handling_witness :
    commentsStep ⟨[], []⟩ lineCommentDoc
      = .ok (send ⟨[], []⟩ (.setCommentLine "//")) :=
  (comments_handling ⟨[], []⟩ lineCommentDoc
      (.ymap [(.scalar "line", .scalar "//"), (.scalar "block", .scalar "x")])
      (by rfl) (by rfl)).1
    "//" (.scalar "x") (by rfl) (by rfl) (by rfl)

end Languages

end Koder
